import Mathlib

/-!
Verification of the split-timer core of `speedy` (`src/main.rs`): the run
state machine (`RunApp::handle_signal`, `RunApp::update_current_time`), the
merge engine (`RunApp::save`), the comparison/formatting helpers
(`time_to_string`, `delta_time_to_string`, `current_section_time`,
`last_loss`, `loss_so_far`) and the run-file persistence
(`save_run`/`load_run`).  Machine integers (`u32`, `i32`) are modelled as
`Nat`/`Int` with explicit wrapping where the wrap is observable; the
monotonic clock is passed in as explicit elapsed-millisecond readings.
-/

namespace Speedy

/-- One checkpoint entry, mirroring `struct Section` in `src/main.rs`:
a `name` and the cumulative time in milliseconds (`u32` in the source,
modelled as `Nat`; times written by the program are genuine `u32` values). -/
structure Section where
  name : String
  time : Nat
deriving DecidableEq

/-- The part of `GameConfig` the timing logic reads: the ordered list of
section names.  The remaining fields (`version`, `directory_name`,
`full_game_name`, `bridge_script`) never influence the run state machine or
the merge engine.  `load_config` guarantees `sections` is nonempty. -/
structure GameConfig where
  sections : List String
deriving DecidableEq

/-- The run state, mirroring `struct RunApp`.  `start_time` (the monotonic
clock epoch) is modelled by passing each operation the elapsed reading it
takes; `start_date` only names the history file and `bridge_error` only
aborts the UI loop, so neither is carried here. -/
structure RunApp where
  config : GameConfig
  current_sections : List Section
  pb_sections : Option (List Section)
  sum_of_best_sections : Option (List Section)
  running : Bool
deriving DecidableEq

/-- `xs[i].time`, with Rust's panicking index modelled as defaulting to `0`
out of range; every use below is in range exactly when the source would not
panic. -/
def timeAt (xs : List Section) (i : Nat) : Nat :=
  (xs.getD i ⟨"", 0⟩).time

/-- Segment duration at index `i` when the cumulative value before index
`0` is `p`.  Subtraction is `Nat` truncated subtraction; the source uses
`u32` subtraction, which agrees on monotone cumulative data. -/
def relSeg (p : Nat) (xs : List Section) (i : Nat) : Nat :=
  if i = 0 then timeAt xs 0 - p else timeAt xs i - timeAt xs (i - 1)

/-- Segment duration at index `i` with `cumulative[-1] = 0`. -/
def segAt (xs : List Section) (i : Nat) : Nat := relSeg 0 xs i

/-- Cumulative times are non-decreasing along the record. -/
abbrev CumMonotone (xs : List Section) : Prop :=
  List.Chain' (fun a b => a.time ≤ b.time) xs

/-- `self.current_sections.last_mut().unwrap().time = t`: overwrite the
last entry's time.  The source unwraps and would panic on an empty list;
every call below happens on a running run, which always holds at least one
section. -/
def setLastTime : List Section → Nat → List Section
  | [], _ => []
  | [s], t => [⟨s.name, t⟩]
  | s :: s' :: rest, t => s :: setLastTime (s' :: rest) t

/-- `RunApp::update_current_time` (main.rs:242-253), with the raw
elapsed-clock reading `t` (the milliseconds `Instant::elapsed` reports)
passed explicitly.  The source stores `elapsed().as_millis() as u32`
(main.rs:251-252), so the stored value wraps modulo `2^32`. -/
def RunApp.update_current_time (app : RunApp) (t : Nat) : RunApp :=
  if app.running = false then app
  else if app.config.sections.length < app.current_sections.length then app
  else { app with
    current_sections := setLastTime app.current_sections (t % 4294967296) }

/-- The sum-of-best rebuild loop of `RunApp::save` (main.rs:588-608),
carrying the previous cumulative values `pc`/`ps` of the run and of the old
sum-of-best, and the running total `acc` (`new_sum_of_best` in the source).
The source indexes `sum_of_best_sections[i]` and would panic were the
stored record shorter than the run; that unreachable case stops early
here. -/
def sumOfBestLoop (pc ps acc : Nat) : List Section → List Section → List Section
  | [], _ => []
  | _ :: _, [] => []
  | c :: cs, s :: ss =>
    ⟨c.name, acc + (if s.time - ps < c.time - pc then s.time - ps else c.time - pc)⟩ ::
      sumOfBestLoop c.time s.time
        (acc + (if s.time - ps < c.time - pc then s.time - ps else c.time - pc)) cs ss

/-- The record `RunApp::save` writes to `sum_of_best.run`. -/
def RunApp.new_sob (app : RunApp) : List Section :=
  match app.sum_of_best_sections with
  | some sob => sumOfBestLoop 0 0 0 app.current_sections sob
  | none => app.current_sections

/-- The records `RunApp::save` persists on success: the timestamped history
file, the `pb.run` file when (and only when) a new personal best was
detected, and the `sum_of_best.run` file.  File placement is abstracted to
the written contents. -/
structure SaveResult where
  history : List Section
  pb : Option (List Section)
  sum_of_best : List Section
deriving DecidableEq

/-- `RunApp::save` (main.rs:559-616).  `none` models an early `Err` return
(an `ensure!` failure on a PB record whose shape mismatches the run, or
`.last()` on an empty list).  On those error paths the source has already
written the history file; only the successfully completed call is
modelled. -/
def RunApp.save (app : RunApp) : Option SaveResult :=
  match app.pb_sections with
  | some pb =>
    if pb.length == app.current_sections.length
        && (List.zip pb app.current_sections).all (fun p => p.1.name == p.2.name) then
      match app.current_sections.getLast?, pb.getLast? with
      | some cl, some pl =>
        some ⟨app.current_sections,
          if cl.time < pl.time then some app.current_sections else none,
          app.new_sob⟩
      | _, _ => none
    else none
  | none => some ⟨app.current_sections, some app.current_sections, app.new_sob⟩

/-- Outcome of the merge/persistence step inside `handle_signal`. -/
inductive MergeOut where
  | noMerge : MergeOut
  | merged : SaveResult → MergeOut
  | mergeFailed : MergeOut
deriving DecidableEq

/-- The signal number `handle_signal` reacts to (`SIGUSR1` on Linux). -/
def SIGUSR1 : Int := 10

/-- `RunApp::handle_signal` (main.rs:83-135).  Audio cues are dropped.  The
two raw elapsed readings the source takes while running (inside
`update_current_time`, then at the push of the next section) are the
explicit parameters `t1` and `t2`; each is stored as
`elapsed().as_millis() as u32` (main.rs:131), wrapping modulo `2^32`.
The returned state reflects that the source mutates the app through the
lock before `save()?` can fail, so the state transition survives a failed
persist. -/
def RunApp.handle_signal (app : RunApp) (sig : Int) (t1 t2 : Nat) : RunApp × MergeOut :=
  if sig ≠ SIGUSR1 then (app, .noMerge)
  else if app.running = false ∧ app.current_sections.length = 0 then
    ({ app with
        running := true
        current_sections := [⟨app.config.sections.getD 0 "", 0⟩] }, .noMerge)
  else if app.running = false then (app, .noMerge)
  else
    let app1 := app.update_current_time t1
    if app1.config.sections.length ≤ app1.current_sections.length then
      let app2 := { app1 with running := false }
      match app2.save with
      | some r => (app2, .merged r)
      | none => (app2, .mergeFailed)
    else
      ({ app1 with current_sections := app1.current_sections ++
          [⟨app1.config.sections.getD app1.current_sections.length "",
            t2 % 4294967296⟩] }, .noMerge)

/-- Decimal digit characters of `n` (fuel-bounded recursion; `fuel > n`
suffices).  Models Rust's `"{}"` formatting of an unsigned integer. -/
def natDigitsAux : Nat → Nat → List Char
  | 0, _ => []
  | fuel + 1, n =>
    if n < 10 then [Nat.digitChar n]
    else natDigitsAux fuel (n / 10) ++ [Nat.digitChar (n % 10)]

/-- Decimal digits of `n`. -/
def natDigits (n : Nat) : List Char := natDigitsAux (n + 1) n

/-- Left-pad to width `w` with `c`; models Rust's `"{:>2}"` (space fill)
and `"{:02}"` (zero fill) width specifiers. -/
def padLeftChar (c : Char) (w : Nat) (s : List Char) : List Char :=
  List.replicate (w - s.length) c ++ s

/-- `RunApp::time_to_string` (main.rs:489-499): `"{:>2}:{:02}"` of minutes
and seconds for a present value, `"--:--"` or blanks for an absent one
depending on whether row `i` lies before the live section. -/
def RunApp.time_to_string (app : RunApp) (i : Nat) (time : Option Nat) : String :=
  match time with
  | some t =>
    String.mk (padLeftChar ' ' 2 (natDigits (t / 60000)) ++
      ':' :: padLeftChar '0' 2 (natDigits (t / 1000 % 60)))
  | none =>
    if i < app.current_sections.length - 1 then "--:--" else "     "

/-- `RunApp::delta_time_to_string` (main.rs:509-524).  Minutes are
unpadded here (`"{}"`), unlike in `time_to_string`. -/
def RunApp.delta_time_to_string (app : RunApp) (i : Nat) (time : Option Int) : String :=
  match time with
  | some t =>
    if t < 0 then
      String.mk ('(' :: '-' :: natDigits (t.natAbs / 60000) ++
        ':' :: padLeftChar '0' 2 (natDigits (t.natAbs / 1000 % 60)) ++ [')'])
    else
      String.mk ('(' :: '+' :: natDigits (t.toNat / 60000) ++
        ':' :: padLeftChar '0' 2 (natDigits (t.toNat / 1000 % 60)) ++ [')'])
  | none =>
    if i < app.current_sections.length - 1 then "(--:--)" else "       "

/-- The colours the run row printer distinguishes (`FG`, `GREY`, `GOLD`). -/
inductive DisplayColor where
  | fg : DisplayColor
  | grey : DisplayColor
  | gold : DisplayColor
deriving DecidableEq

/-- The derived `Option<u32>` ordering used by `Some(time) < sob_section`
(main.rs:320): `None` sorts below every `Some`. -/
def optLt : Option Nat → Option Nat → Bool
  | none, none => false
  | none, some _ => true
  | some _, none => false
  | some a, some b => a < b

/-- `RunApp::current_section_time` (main.rs:288-337), reduced to what is
printed for row `i`: the rendered string and its colour, or `none` when
nothing is printed. -/
def RunApp.current_section_time (app : RunApp) (i : Nat) : Option (String × DisplayColor) :=
  let sob_section : Option Nat :=
    match app.sum_of_best_sections with
    | some sob =>
      some (if i = 0 then timeAt sob 0 else timeAt sob i - timeAt sob (i - 1))
    | none => none
  match (app.current_sections.get? i).map Section.time with
  | some c =>
    let last_time := if i = 0 then 0 else timeAt app.current_sections (i - 1)
    let time := c - last_time
    some (app.time_to_string i (some time),
      if i < app.current_sections.length - 1 ∧ optLt (some time) sob_section = true
      then DisplayColor.gold else DisplayColor.fg)
  | none =>
    match sob_section with
    | some s => some (app.time_to_string 0 (some s), DisplayColor.grey)
    | none => none

/-- `x as i32` on a `u32` value: two's-complement reinterpretation. -/
def toI32 (n : Nat) : Int :=
  if n % 4294967296 < 2147483648 then ((n % 4294967296 : Nat) : Int)
  else ((n % 4294967296 : Nat) : Int) - 4294967296

/-- Wrap an integer into the `i32` range (release-mode overflow semantics
of `i32` arithmetic). -/
def i32wrap (x : Int) : Int :=
  if x % 4294967296 < 2147483648 then x % 4294967296
  else x % 4294967296 - 4294967296

/-- `x as u32` on an `i32` value. -/
def toU32 (x : Int) : Nat := (x % 4294967296).toNat

/-- `RunApp::last_loss` (main.rs:339-352): the deficit of the second-to-last
section of the current run against the sum-of-best, `0` when fewer than two
sections exist or no sum-of-best is stored. -/
def RunApp.last_loss (app : RunApp) : Int :=
  if app.current_sections.length ≤ 1 then 0
  else
    match app.sum_of_best_sections with
    | some sob =>
      i32wrap (toI32 (timeAt app.current_sections (app.current_sections.length - 2)) -
        toI32 (timeAt sob (app.current_sections.length - 2)))
    | none => 0

/-- `RunApp::loss_so_far` (main.rs:354-370). -/
def RunApp.loss_so_far (app : RunApp) : Int :=
  if app.current_sections.length = 0 then 0
  else
    match app.sum_of_best_sections with
    | some sob =>
      let c := timeAt app.current_sections (app.current_sections.length - 1)
      let s_c := timeAt sob (app.current_sections.length - 1)
      let last_loss := app.last_loss
      if toU32 (i32wrap (toI32 s_c + last_loss)) < c then
        i32wrap (toI32 c - toI32 s_c)
      else last_loss
    | none => 0

/-- `min_sec_mil_to_millis` (main.rs:619-621); the `u32` arithmetic wraps
modulo `2^32`. -/
def min_sec_mil_to_millis (min sec mil : Nat) : Nat :=
  ((min * 60 + sec) * 1000 + mil) % 4294967296

/-- `millis_to_min_sec_mil` (main.rs:623-628). -/
def millis_to_min_sec_mil (millis : Nat) : Nat × Nat × Nat :=
  (millis / 60000, millis / 1000 % 60, millis % 1000)

/-- The characters `"{}m{:02}.{:03}s"` of a time value as written by one
`writeln!` of `save_run` (main.rs:729). -/
def renderTimeChars (t : Nat) : List Char :=
  natDigits (t / 60000) ++ 'm' :: padLeftChar '0' 2 (natDigits (t / 1000 % 60)) ++
    '.' :: padLeftChar '0' 3 (natDigits (t % 1000)) ++ ['s']

/-- One line `"{name}: {time}"` of a run file. -/
def renderLineChars (s : Section) : List Char :=
  s.name.data ++ ':' :: ' ' :: renderTimeChars s.time

/-- `save_run` (main.rs:718-735): the full file contents, one terminated
line per section; directory and file naming are abstracted to the written
contents. -/
def save_run (sections : List Section) : String :=
  String.mk (sections.foldr (fun s acc => renderLineChars s ++ '\n' :: acc) [])

/-- `str::parse::<u32>` of an all-digit capture. -/
def natOfDigits (ds : List Char) : Nat :=
  ds.foldl (fun a c => a * 10 + (c.toNat - '0'.toNat)) 0

/-- Matching of the suffix `(\d*)m(\d{2})\.(\d{3})s$` of the run-file regex
against the rest of a line after `": "`, with `(\d*)` maximal-munch (giving
digits back can never help, since the next token `m` is not a digit).  The
regex itself admits an empty minute capture or one over `u32::MAX`, on
which the source then panics in `parse().unwrap()`; both are modelled as a
failed load. -/
def parseTimePart (cs : List Char) : Option Nat :=
  let ds := cs.takeWhile Char.isDigit
  match cs.dropWhile Char.isDigit with
  | 'm' :: d1 :: d2 :: '.' :: e1 :: e2 :: e3 :: 's' :: [] =>
    if ds ≠ [] ∧ (d1.isDigit && d2.isDigit && e1.isDigit && e2.isDigit && e3.isDigit) = true
        ∧ natOfDigits ds < 4294967296 then
      some (min_sec_mil_to_millis (natOfDigits ds) (natOfDigits [d1, d2])
        (natOfDigits [e1, e2, e3]))
    else none
  | _ => none

/-- The regex `^(.*): (\d*)m(\d{2})\.(\d{3})s$` applied to one line
(main.rs:699), under the leftmost-first (greedy) capture semantics of the
`regex` crate: `(.*)` ends at the rightmost `": "` whose remainder matches
the time pattern. -/
def parseLineAux : List Char → Option (List Char × Nat)
  | [] => none
  | c :: rest =>
    match parseLineAux rest with
    | some p => some (c :: p.1, p.2)
    | none =>
      if c = ':' then
        match rest with
        | ' ' :: rest2 => (parseTimePart rest2).map (fun t => (([] : List Char), t))
        | _ => none
      else none

/-- One parsed line of a run file. -/
def parseLine (cs : List Char) : Option Section :=
  (parseLineAux cs).map (fun p => ⟨String.mk p.1, p.2⟩)

/-- Strip one trailing carriage return, as `BufRead::lines` does on a line
terminated by `"\r\n"`. -/
def stripCR (l : List Char) : List Char :=
  if l.getLast? = some '\r' then l.dropLast else l

/-- `BufRead::lines` on the file contents: split at `'\n'`, strip one
trailing `'\r'` from each newline-terminated line, and yield a final
unterminated line only when it is nonempty. -/
def splitLinesAux (acc : List Char) : List Char → List (List Char)
  | [] => if acc.isEmpty then [] else [acc.reverse]
  | c :: rest =>
    if c = '\n' then stripCR acc.reverse :: splitLinesAux [] rest
    else splitLinesAux (c :: acc) rest

/-- `load_run` (main.rs:679-716) on the contents of an existing file: parse
every line; `none` models the `Err` on a line the regex rejects (the
missing-file case, which yields `Ok(None)` in the source, does not arise in
a round trip). -/
def load_run (file : String) : Option (List Section) :=
  (splitLinesAux [] file.data).mapM parseLine

/-- External stimuli to the shared run state: a delivered `SIGUSR1` (with
the two elapsed readings `handle_signal` takes) or a render-tick refresh. -/
inductive Ev where
  | sig : Nat → Nat → Ev
  | refresh : Nat → Ev
deriving DecidableEq

/-- Run a list of events against the shared state, threading the latest
raw elapsed reading `τ` of the current clock epoch.  A `none` result marks
a trace whose raw readings are inconsistent with the monotone `Instant`
clock (readings since the last reset never decrease; a start event resets
the epoch, so the bound restarts at `0`).  The guards constrain only the
raw pre-cast readings — the values the state functions then store wrap
modulo `2^32` — and are a modelling device for that physical property,
not program code. -/
def execT : List Ev → RunApp → Nat → Option (RunApp × Nat)
  | [], app, τ => some (app, τ)
  | Ev.refresh t :: es, app, τ =>
    if app.running = true then
      if τ ≤ t then execT es (app.update_current_time t) t else none
    else execT es (app.update_current_time t) τ
  | Ev.sig t1 t2 :: es, app, τ =>
    if app.running = false ∧ app.current_sections.length = 0 then
      execT es (app.handle_signal SIGUSR1 t1 t2).1 0
    else if app.running = false then
      execT es app τ
    else if τ ≤ t1 ∧ t1 ≤ t2 then
      execT es (app.handle_signal SIGUSR1 t1 t2).1 t2
    else none

/-- The final cumulative time of a record, when the record is nonempty. -/
def finalTime (xs : List Section) : Option Nat := xs.getLast?.map Section.time

/-- Clock readings of the current epoch bound all stored section times. -/
def ClockBound (app : RunApp) (τ : Nat) : Prop :=
  ∀ s ∈ app.current_sections, s.time ≤ τ

/-! Concrete states used by witnesses and counterexamples. -/

/-- An arbitrary app for exercising the formatters. -/
def appFmtC6 : RunApp := ⟨⟨["A"]⟩, [], none, none, false⟩

/-- A running run on its first (live) section, 50ms spent, against a
sum-of-best whose first segment is 100ms: strictly ahead of best pace. -/
def app7cex : RunApp :=
  ⟨⟨["A", "B"]⟩, [⟨"A", 50⟩], none, some [⟨"A", 100⟩, ⟨"B", 300⟩], true⟩

/-- A running run whose first section is committed 50ms (ahead of the
100ms sum-of-best segment), live on the second section. -/
def app7wit : RunApp :=
  ⟨⟨["A", "B"]⟩, [⟨"A", 50⟩, ⟨"B", 70⟩], none, some [⟨"A", 100⟩, ⟨"B", 300⟩], true⟩

/-- A running run that lost 100ms on section A (200 vs 100) and was on
sum-of-best pace for section B; the next split is fast. -/
def app8cex : RunApp :=
  ⟨⟨["A", "B", "C"]⟩, [⟨"A", 200⟩, ⟨"B", 200⟩], none,
   some [⟨"A", 100⟩, ⟨"B", 200⟩, ⟨"C", 300⟩], true⟩

/-- The stored sum-of-best used by the loss-so-far witness. -/
def sobC8w : List Section := [⟨"A", 100⟩, ⟨"B", 200⟩, ⟨"C", 300⟩]

/-- A running run for the loss-so-far characterization witness. -/
def app8wit : RunApp :=
  ⟨⟨["A", "B", "C"]⟩, [⟨"A", 200⟩, ⟨"B", 250⟩], none, some sobC8w, true⟩

/-- A finished run: not running, every configured section committed. -/
def appFinC3 : RunApp := ⟨⟨["A", "B"]⟩, [⟨"A", 5⟩, ⟨"B", 9⟩], none, none, false⟩

/-- Another finished run, with stored records present. -/
def appFinC3w : RunApp :=
  ⟨⟨["A", "B"]⟩, [⟨"A", 7⟩, ⟨"B", 12⟩], some [⟨"A", 6⟩, ⟨"B", 11⟩],
   some [⟨"A", 5⟩, ⟨"B", 10⟩], false⟩

/-- A finished run used for the stray-split witness. -/
def appFinC4 : RunApp :=
  ⟨⟨["A", "B", "C"]⟩, [⟨"A", 3⟩, ⟨"B", 6⟩, ⟨"C", 10⟩], none, none, false⟩

/-- A running run, live on its second of three sections. -/
def appC9w : RunApp :=
  ⟨⟨["A", "B", "C"]⟩, [⟨"A", 5⟩, ⟨"B", 9⟩], none, none, true⟩

/-- A finished run (spec Scenario B) with a slower stored PB. -/
def appC2w : RunApp :=
  ⟨⟨["A", "B", "C"]⟩, [⟨"A", 9500⟩, ⟨"B", 23500⟩, ⟨"C", 37000⟩],
   some [⟨"A", 10000⟩, ⟨"B", 25000⟩, ⟨"C", 40000⟩], none, false⟩

/-- What `save` persists for `appC2w`: a new PB (37000 < 40000), and the
run itself as initial sum-of-best (none was stored). -/
def rC2w : SaveResult :=
  ⟨appC2w.current_sections, some appC2w.current_sections, appC2w.current_sections⟩

/-- The stored sum-of-best of spec Scenario B. -/
def sobC1w : List Section := [⟨"A", 9000⟩, ⟨"B", 23000⟩, ⟨"C", 38000⟩]

/-- A finished run (spec Scenario B) with a stored sum-of-best and no PB. -/
def appC1w : RunApp :=
  ⟨⟨["A", "B", "C"]⟩, [⟨"A", 9500⟩, ⟨"B", 23500⟩, ⟨"C", 37000⟩],
   none, some sobC1w, false⟩

/-- What `save` persists for `appC1w`: the rebuilt sum-of-best of
Scenario B, `[9000, 23000, 36500]`. -/
def rC1w : SaveResult :=
  ⟨appC1w.current_sections, some appC1w.current_sections,
   [⟨"A", 9000⟩, ⟨"B", 23000⟩, ⟨"C", 36500⟩]⟩

/-- The idle initial state `prepare_run` produces (no run yet). -/
def appC5w : RunApp := ⟨⟨["A", "B"]⟩, [], none, none, false⟩

/-- The state and clock bound after the witness trace finishes. -/
def outC5w : RunApp × Nat :=
  (⟨⟨["A", "B"]⟩, [⟨"A", 5⟩, ⟨"B", 9⟩], none, none, false⟩, 9)

/-- Every raw elapsed reading an event carries is below `2^32` ms, so the
`as u32` cast of the stored reading cannot wrap. -/
def EvBounded : Ev → Prop
  | Ev.sig t1 t2 => t1 < 4294967296 ∧ t2 < 4294967296
  | Ev.refresh t => t < 4294967296

instance : DecidablePred EvBounded := fun e =>
  match e with
  | Ev.sig t1 t2 => inferInstanceAs (Decidable (t1 < 4294967296 ∧ t2 < 4294967296))
  | Ev.refresh t => inferInstanceAs (Decidable (t < 4294967296))

/-- The finished state of a run whose second split happens just past
`2^32` ms: the stored `u32` reading wrapped to 5, below the first
section's 4294967295. -/
def outC5cex : RunApp × Nat :=
  (⟨⟨["A", "B"]⟩, [⟨"A", 4294967295⟩, ⟨"B", 5⟩], none, none, false⟩,
   4294967301)

/-- Sections for the persistence round-trip witness; the second name even
contains a decoy `": ...s"` pattern the greedy regex must skip over. -/
def sectionsC10w : List Section :=
  [⟨"boss fight", 125999⟩, ⟨"x: 1m02.003s", 200⟩]

end Speedy

namespace Speedy

/-! ### C6: time formatting -/

/-- C6 counterexample: `time_to_string` renders 125000ms as `" 2:05"` —
the minutes are right-aligned in a width-2 field (`"{:>2}"`, space fill) —
not as the claimed `"2:05"`. -/
theorem time_format_pad_cex :
    appFmtC6.time_to_string 0 (some 125000) ≠ "2:05" := by decide

/-- C6 (amended): `time_to_string` renders milliseconds as `M:SS` with the
minutes right-aligned in a width-2 space-padded field and the seconds
zero-padded to two digits, truncating sub-second parts
(`time_to_string 125000 = " 2:05"`, also for 125999; two-digit minutes fill
the field: `665000 ↦ "11:05"`); signed deltas use unpadded minutes:
`delta_time_to_string (-5000) = "(-0:05)"` and
`delta_time_to_string 65000 = "(+1:05)"`. -/
theorem time_format_values (app : RunApp) :
    app.time_to_string 0 (some 125000) = " 2:05" ∧
    app.time_to_string 0 (some 125999) = " 2:05" ∧
    app.time_to_string 0 (some 665000) = "11:05" ∧
    app.delta_time_to_string 0 (some (-5000)) = "(-0:05)" ∧
    app.delta_time_to_string 0 (some 65000) = "(+1:05)" :=
  ⟨rfl, rfl, rfl, rfl, rfl⟩

/-! ### C3 / C4: behaviour of the state machine after a run finishes -/

/-- C3 counterexample: on a finished run (here `appFinC3`, all sections of
the config committed, not running), a further advance signal leaves the
state exactly as it was — `running` stays `false` and the section list is
not cleared — so no fresh run begins, contradicting the claim that a start
event after a finish clears the sections and sets the status to Running. -/
theorem finished_signal_not_restart_cex :
    (appFinC3.handle_signal SIGUSR1 3 4).1.running = false ∧
    (appFinC3.handle_signal SIGUSR1 3 4).1.current_sections =
      appFinC3.current_sections ∧
    appFinC3.current_sections ≠ [] ∧
    appFinC3.running = false ∧
    appFinC3.current_sections.length = appFinC3.config.sections.length := by
  decide

/-- C3 (amended): after a run finishes, the machine rests in a
non-running state that still holds the completed section list; because the
start transition requires an empty section list, every subsequent advance
signal is a complete no-op (state unchanged, no merge, no error) and no
fresh run can begin in the same process. -/
theorem finished_signal_noop_state (app : RunApp) (sig : Int) (t1 t2 : Nat)
    (hr : app.running = false) (hne : app.current_sections ≠ []) :
    app.handle_signal sig t1 t2 = (app, MergeOut.noMerge) := by
  have h0 : ¬app.current_sections.length = 0 := by
    simpa [List.length_eq_zero] using hne
  unfold RunApp.handle_signal
  by_cases hs : sig ≠ SIGUSR1
  · simp [hs]
  · simp [hs, hr, h0]

/-- Witness for `finished_signal_noop_state` at the finished state
`appFinC3w`. -/
theorem finished_signal_noop_state_witness :
    appFinC3w.handle_signal SIGUSR1 20 21 = (appFinC3w, MergeOut.noMerge) :=
  finished_signal_noop_state appFinC3w SIGUSR1 20 21 rfl (by decide)

/-- C4: a Split signal arriving while the run is finished (not running,
every configured section committed) leaves the run state unchanged, does
not re-trigger the merge/persistence, and raises no error. -/
theorem split_while_finished_noop (app : RunApp) (sig : Int) (t1 t2 : Nat)
    (hr : app.running = false)
    (hlen : app.current_sections.length = app.config.sections.length)
    (hcfg : app.config.sections ≠ []) :
    app.handle_signal sig t1 t2 = (app, MergeOut.noMerge) := by
  have h0 : ¬app.current_sections.length = 0 := by
    rw [hlen]
    simpa [List.length_eq_zero] using hcfg
  unfold RunApp.handle_signal
  by_cases hs : sig ≠ SIGUSR1
  · simp [hs]
  · simp [hs, hr, h0]

/-- Witness for `split_while_finished_noop` at the finished state
`appFinC4`. -/
theorem split_while_finished_noop_witness :
    appFinC4.handle_signal SIGUSR1 15 16 = (appFinC4, MergeOut.noMerge) :=
  split_while_finished_noop appFinC4 SIGUSR1 15 16 rfl rfl (by decide)

/-! ### C7: the gold (ahead-of-best) indicator -/

/-- C7 counterexample: in `app7cex` the live section (index 0, the last
entry of `current_sections`) has segment time 50 strictly below the
sum-of-best segment 100, yet `current_section_time` colours it `fg`, not
`gold`: the live/in-progress section is never shown gold, contradicting
the claim that it is gold exactly when strictly ahead. -/
theorem live_section_not_gold_cex :
    (app7cex.current_section_time 0).map Prod.snd = some DisplayColor.fg ∧
    segAt app7cex.current_sections 0 < segAt [⟨"A", 100⟩, ⟨"B", 300⟩] 0 ∧
    app7cex.sum_of_best_sections = some [⟨"A", 100⟩, ⟨"B", 300⟩] ∧
    app7cex.current_sections.length - 1 = 0 ∧
    app7cex.running = true := by decide

/-! ### C8: the loss-so-far carry -/

/-- C8 counterexample: from `app8cex` (100ms behind after section A,
back on pace at B) a single ordinary split — a step of the same run,
no merge — drops `loss_so_far` from 100 to 0: the carried loss is NOT
non-decreasing, because `last_loss` only looks one section back instead
of carrying the maximum. -/
theorem loss_so_far_decreases_cex :
    (app8cex.handle_signal SIGUSR1 200 200).1.loss_so_far < app8cex.loss_so_far ∧
    app8cex.running = true ∧
    (app8cex.handle_signal SIGUSR1 200 200).2 = MergeOut.noMerge ∧
    (app8cex.handle_signal SIGUSR1 200 200).1.running = true := by decide

/-! ### Index lemmas -/

theorem timeAt_of_get? (xs : List Section) (i : Nat) (c : Section)
    (hc : xs.get? i = some c) : timeAt xs i = c.time := by
  unfold timeAt
  rw [List.getD_eq_getElem?_getD, ← List.get?_eq_getElem?, hc]
  rfl

/-- Evaluation of `current_section_time` on a row that has current data,
when a sum-of-best record is stored. -/
theorem current_section_time_eval (app : RunApp) (i : Nat) (c : Section)
    (sob : List Section)
    (hc : app.current_sections.get? i = some c)
    (hsob : app.sum_of_best_sections = some sob) :
    app.current_section_time i =
      some (app.time_to_string i
          (some (c.time - (if i = 0 then 0 else timeAt app.current_sections (i - 1)))),
        if i < app.current_sections.length - 1 ∧
            optLt (some (c.time - (if i = 0 then 0 else timeAt app.current_sections (i - 1))))
              (some (if i = 0 then timeAt sob 0 else timeAt sob i - timeAt sob (i - 1))) = true
        then DisplayColor.gold else DisplayColor.fg) := by
  unfold RunApp.current_section_time
  rw [hsob, hc]
  rfl

/-- C7 (amended): when a sum-of-best record is stored, a row with current
data is shown gold exactly when it is a committed section strictly before
the live one AND its segment time is strictly below the sum-of-best
segment; in particular the live section itself (the last row with data)
is always shown in the plain foreground colour, never gold. -/
theorem gold_iff_committed_ahead (app : RunApp) (i : Nat) (c : Section)
    (sob : List Section)
    (hc : app.current_sections.get? i = some c)
    (hsob : app.sum_of_best_sections = some sob) :
    ((app.current_section_time i).map Prod.snd = some DisplayColor.gold ↔
      (i < app.current_sections.length - 1 ∧
        segAt app.current_sections i < segAt sob i)) ∧
    (app.current_sections.length - 1 ≤ i →
      (app.current_section_time i).map Prod.snd = some DisplayColor.fg) := by
  have htime : timeAt app.current_sections i = c.time := timeAt_of_get? _ _ _ hc
  have hseg : segAt app.current_sections i =
      c.time - (if i = 0 then 0 else timeAt app.current_sections (i - 1)) := by
    unfold segAt relSeg
    by_cases h0 : i = 0
    · subst h0; simp [htime]
    · simp [h0, htime]
  have hsegs : segAt sob i =
      (if i = 0 then timeAt sob 0 else timeAt sob i - timeAt sob (i - 1)) := by
    unfold segAt relSeg
    by_cases h0 : i = 0 <;> simp [h0]
  rw [current_section_time_eval app i c sob hc hsob]
  constructor
  · by_cases hcond : i < app.current_sections.length - 1 ∧
        optLt (some (c.time - (if i = 0 then 0 else timeAt app.current_sections (i - 1))))
          (some (if i = 0 then timeAt sob 0 else timeAt sob i - timeAt sob (i - 1))) = true
    · rw [if_pos hcond]
      obtain ⟨h1, h2⟩ := hcond
      simp only [optLt, decide_eq_true_eq] at h2
      simp only [Option.map_some']
      exact iff_of_true trivial ⟨h1, by rw [hseg, hsegs]; exact h2⟩
    · rw [if_neg hcond]
      simp only [Option.map_some', Option.some.injEq]
      constructor
      · intro hbad; cases hbad
      · intro ⟨h1, h2⟩
        exact absurd ⟨h1, by
          simp only [optLt, decide_eq_true_eq]
          rw [hseg, hsegs] at h2; exact h2⟩ hcond
  · intro hlast
    have : ¬(i < app.current_sections.length - 1 ∧
        optLt (some (c.time - (if i = 0 then 0 else timeAt app.current_sections (i - 1))))
          (some (if i = 0 then timeAt sob 0 else timeAt sob i - timeAt sob (i - 1))) = true) := by
      rintro ⟨h1, _⟩; omega
    rw [if_neg this]
    rfl

/-- Witness for `gold_iff_committed_ahead`: in `app7wit` the committed
section 0 (segment 50 against sum-of-best segment 100) is shown gold. -/
theorem gold_iff_committed_ahead_witness :
    (app7wit.current_section_time 0).map Prod.snd = some DisplayColor.gold :=
  (gold_iff_committed_ahead app7wit 0 ⟨"A", 50⟩ [⟨"A", 100⟩, ⟨"B", 300⟩] rfl rfl).1.mpr
    (by decide)

/-! ### C2: new-PB classification -/

/-- C2: a successful `save` writes the finished run as the new PB record
exactly when no PB record exists or the run's final cumulative time is
strictly below the PB's final cumulative time (a tie writes nothing);
moreover the PB slot only ever receives the finished run itself. -/
theorem save_new_pb_iff (app : RunApp) (r : SaveResult) (h : app.save = some r) :
    (r.pb = some app.current_sections ↔
      (app.pb_sections = none ∨
        ∃ pb ct pt, app.pb_sections = some pb ∧
          finalTime app.current_sections = some ct ∧
          finalTime pb = some pt ∧ ct < pt)) ∧
    (r.pb = some app.current_sections ∨ r.pb = none) := by
  unfold RunApp.save at h
  cases hpb : app.pb_sections with
  | none =>
    rw [hpb] at h
    injection h with h
    subst h
    exact ⟨iff_of_true rfl (Or.inl rfl), Or.inl rfl⟩
  | some pb =>
    rw [hpb] at h
    dsimp only at h
    by_cases hg : (pb.length == app.current_sections.length
        && (List.zip pb app.current_sections).all fun p => p.1.name == p.2.name) = true
    · rw [if_pos hg] at h
      cases hcl : app.current_sections.getLast? with
      | none =>
        rw [hcl] at h
        cases hpl : pb.getLast? <;> rw [hpl] at h <;> cases h
      | some cl =>
        rw [hcl] at h
        cases hpl : pb.getLast? with
        | none => rw [hpl] at h; cases h
        | some pl =>
          rw [hpl] at h
          injection h with h
          subst h
          by_cases hlt : cl.time < pl.time
          · refine ⟨iff_of_true ?_ ?_, Or.inl ?_⟩
            · show (if cl.time < pl.time then some app.current_sections else none) =
                some app.current_sections
              rw [if_pos hlt]
            · exact Or.inr ⟨pb, cl.time, pl.time, rfl,
                by rw [finalTime, hcl]; rfl, by rw [finalTime, hpl]; rfl, hlt⟩
            · show (if cl.time < pl.time then some app.current_sections else none) =
                some app.current_sections
              rw [if_pos hlt]
          · refine ⟨?_, Or.inr ?_⟩
            · constructor
              · intro hbad
                rw [if_neg hlt] at hbad
                cases hbad
              · rintro (hnone | ⟨pb', ct, pt, hpb', hct, hpt, hlt'⟩)
                · exact Option.noConfusion hnone
                · injection hpb' with e
                  subst e
                  have e1 : ct = cl.time := by
                    unfold finalTime at hct
                    rw [hcl] at hct
                    simp only [Option.map_some', Option.some.injEq] at hct
                    exact hct.symm
                  have e2 : pt = pl.time := by
                    unfold finalTime at hpt
                    rw [hpl] at hpt
                    simp only [Option.map_some', Option.some.injEq] at hpt
                    exact hpt.symm
                  rw [e1, e2] at hlt'
                  exact absurd hlt' hlt
            · show (if cl.time < pl.time then some app.current_sections else none) = none
              rw [if_neg hlt]
    · rw [if_neg hg] at h; cases h

/-- Witness for `save_new_pb_iff`: for `appC2w` (run total 37000, stored
PB total 40000) the successful save writes the run as the new PB. -/
theorem save_new_pb_iff_witness :
    rC2w.pb = some appC2w.current_sections :=
  (save_new_pb_iff appC2w rC2w (by decide)).1.mpr
    (Or.inr ⟨[⟨"A", 10000⟩, ⟨"B", 25000⟩, ⟨"C", 40000⟩], 37000, 40000, rfl,
      by decide, by decide, by decide⟩)

/-! ### C9: live refresh does not touch committed sections -/

theorem setLastTime_length (l : List Section) (t : Nat) :
    (setLastTime l t).length = l.length := by
  induction l with
  | nil => rfl
  | cons s rest ih =>
    cases rest with
    | nil => rfl
    | cons s' rest' =>
      simp only [setLastTime, List.length_cons]
      rw [ih]
      simp

theorem setLastTime_get? (l : List Section) (t : Nat) (j : Nat)
    (hj : j + 1 < l.length) :
    (setLastTime l t).get? j = l.get? j := by
  induction l generalizing j with
  | nil => simp at hj
  | cons s rest ih =>
    cases rest with
    | nil => simp at hj
    | cons s' rest' =>
      cases j with
      | zero => rfl
      | succ j' =>
        simp only [setLastTime, List.get?_cons_succ]
        exact ih j' (by simpa using hj)

/-- One `update_current_time` call never changes any section other than
the last, never changes the number of sections, and never touches the PB
record, the sum-of-best record, the running flag or the config. -/
theorem update_current_time_preserves (app : RunApp) (t : Nat) :
    (∀ j, j + 1 < app.current_sections.length →
      (app.update_current_time t).current_sections.get? j =
        app.current_sections.get? j) ∧
    (app.update_current_time t).current_sections.length =
      app.current_sections.length ∧
    (app.update_current_time t).pb_sections = app.pb_sections ∧
    (app.update_current_time t).sum_of_best_sections = app.sum_of_best_sections ∧
    (app.update_current_time t).running = app.running ∧
    (app.update_current_time t).config = app.config := by
  unfold RunApp.update_current_time
  split_ifs with h1 h2
  · exact ⟨fun j _ => rfl, rfl, rfl, rfl, rfl, rfl⟩
  · exact ⟨fun j _ => rfl, rfl, rfl, rfl, rfl, rfl⟩
  · exact ⟨fun j hj => setLastTime_get? _ _ _ hj, setLastTime_length _ _,
      rfl, rfl, rfl, rfl⟩

/-- C9: any sequence of LiveRefresh calls (`update_current_time`, one per
reading in `ts`) without an intervening split leaves every committed
section `j < current_index` unchanged (`current_index` being the index of
the last, live entry), and has no effect on the PB record, the sum-of-best
record, or the run status — it is side-effect-free for merge/PB state. -/
theorem live_refresh_preserves_committed (app : RunApp) (ts : List Nat) :
    (∀ j, j + 1 < app.current_sections.length →
      (ts.foldl RunApp.update_current_time app).current_sections.get? j =
        app.current_sections.get? j) ∧
    (ts.foldl RunApp.update_current_time app).current_sections.length =
      app.current_sections.length ∧
    (ts.foldl RunApp.update_current_time app).pb_sections = app.pb_sections ∧
    (ts.foldl RunApp.update_current_time app).sum_of_best_sections =
      app.sum_of_best_sections ∧
    (ts.foldl RunApp.update_current_time app).running = app.running := by
  induction ts generalizing app with
  | nil => exact ⟨fun j _ => rfl, rfl, rfl, rfl, rfl⟩
  | cons t ts ih =>
    obtain ⟨hget, hlen, hpb, hsob, hrun, -⟩ := update_current_time_preserves app t
    obtain ⟨ihget, ihlen, ihpb, ihsob, ihrun⟩ := ih (app.update_current_time t)
    refine ⟨?_, ?_, ?_, ?_, ?_⟩
    · intro j hj
      rw [List.foldl_cons, ihget j (by rw [hlen]; exact hj), hget j hj]
    · rw [List.foldl_cons, ihlen, hlen]
    · rw [List.foldl_cons, ihpb, hpb]
    · rw [List.foldl_cons, ihsob, hsob]
    · rw [List.foldl_cons, ihrun, hrun]

/-- Witness for `live_refresh_preserves_committed`: two refreshes on
`appC9w` leave the committed section 0 and the stored records intact. -/
theorem live_refresh_preserves_committed_witness :
    (([7, 8] : List Nat).foldl RunApp.update_current_time appC9w).current_sections.get? 0 =
      appC9w.current_sections.get? 0 ∧
    (([7, 8] : List Nat).foldl RunApp.update_current_time appC9w).pb_sections =
      appC9w.pb_sections :=
  ⟨(live_refresh_preserves_committed appC9w [7, 8]).1 0 (by decide),
   (live_refresh_preserves_committed appC9w [7, 8]).2.2.1⟩

/-! ### C1: the sum-of-best minimum merge -/

theorem timeAt_cons_zero (x : Section) (xs : List Section) :
    timeAt (x :: xs) 0 = x.time := rfl

theorem timeAt_cons_succ (x : Section) (xs : List Section) (k : Nat) :
    timeAt (x :: xs) (k + 1) = timeAt xs k := rfl

theorem relSeg_cons_zero (p : Nat) (x : Section) (xs : List Section) :
    relSeg p (x :: xs) 0 = x.time - p := by
  unfold relSeg
  rw [if_pos rfl, timeAt_cons_zero]

theorem relSeg_cons_succ (p : Nat) (x : Section) (xs : List Section) (j : Nat) :
    relSeg p (x :: xs) (j + 1) = relSeg x.time xs j := by
  cases j with
  | zero =>
    unfold relSeg
    simp [timeAt_cons_zero, timeAt_cons_succ]
  | succ j' =>
    unfold relSeg
    simp [timeAt_cons_succ]

theorem sum_map_range_shift (f : Nat → Nat) (n : Nat) :
    ((List.range (n + 1)).map f).sum =
      f 0 + ((List.range n).map (fun j => f (j + 1))).sum := by
  rw [List.range_succ_eq_map]
  simp [List.map_map, Function.comp_def]

/-- The rebuild loop computes, at every index, the carried total plus the
running sum of per-index minimum segments (segments taken relative to the
carried previous cumulative values). -/
theorem sumOfBestLoop_timeAt (cs : List Section) :
    ∀ (ss : List Section) (pc ps acc i : Nat), i < cs.length → cs.length ≤ ss.length →
    timeAt (sumOfBestLoop pc ps acc cs ss) i =
      acc + ((List.range (i + 1)).map
        (fun j => min (relSeg pc cs j) (relSeg ps ss j))).sum := by
  induction cs with
  | nil =>
    intro ss pc ps acc i hi
    simp at hi
  | cons c cs ih =>
    intro ss pc ps acc i hi hl
    cases ss with
    | nil => simp at hl
    | cons s ss =>
      have hmin : (if s.time - ps < c.time - pc then s.time - ps else c.time - pc) =
          min (relSeg pc (c :: cs) 0) (relSeg ps (s :: ss) 0) := by
        rw [relSeg_cons_zero, relSeg_cons_zero, Nat.min_def]
        split_ifs <;> omega
      cases i with
      | zero =>
        show timeAt (⟨c.name, _⟩ :: _) 0 = _
        rw [timeAt_cons_zero, hmin]
        simp [List.range_succ]
      | succ j =>
        show timeAt (⟨c.name, _⟩ :: sumOfBestLoop c.time s.time _ cs ss) (j + 1) = _
        rw [timeAt_cons_succ]
        rw [ih ss c.time s.time _ j (by simpa using hi) (by simpa using hl)]
        rw [sum_map_range_shift
          (fun j => min (relSeg pc (c :: cs) j) (relSeg ps (s :: ss) j)) (j + 1)]
        rw [List.map_congr_left
          (fun a _ => by rw [relSeg_cons_succ, relSeg_cons_succ] :
            ∀ a ∈ List.range (j + 1),
              min (relSeg pc (c :: cs) (a + 1)) (relSeg ps (s :: ss) (a + 1)) =
                min (relSeg c.time cs a) (relSeg s.time ss a))]
        rw [hmin]
        omega

/-- A successful `save` always persists `new_sob` as the sum-of-best. -/
theorem save_sum_of_best_eq (app : RunApp) (r : SaveResult)
    (h : app.save = some r) : r.sum_of_best = app.new_sob := by
  unfold RunApp.save at h
  cases hpb : app.pb_sections with
  | none =>
    rw [hpb] at h
    injection h with h
    subst h
    rfl
  | some pb =>
    rw [hpb] at h
    dsimp only at h
    by_cases hg : (pb.length == app.current_sections.length
        && (List.zip pb app.current_sections).all fun p => p.1.name == p.2.name) = true
    · rw [if_pos hg] at h
      cases hcl : app.current_sections.getLast? with
      | none =>
        rw [hcl] at h
        cases hpl : pb.getLast? <;> rw [hpl] at h <;> cases h
      | some cl =>
        rw [hcl] at h
        cases hpl : pb.getLast? with
        | none => rw [hpl] at h; cases h
        | some pl =>
          rw [hpl] at h
          injection h with h
          subst h
          rfl
    · rw [if_neg hg] at h; cases h

/-- C1: every successful `save` persists the sum-of-best unconditionally;
when no prior sum-of-best exists the finished run's cumulative times are
persisted verbatim; when one exists, the persisted record's cumulative
entry at every index `i` is the running sum of the per-index minimum
segments `min(run segment, old sum-of-best segment)`, and consequently its
own segment at `i` is exactly that minimum. -/
theorem save_sum_of_best_min_merge (app : RunApp) (r : SaveResult)
    (h : app.save = some r) :
    r.sum_of_best = app.new_sob ∧
    (app.sum_of_best_sections = none → r.sum_of_best = app.current_sections) ∧
    (∀ sob, app.sum_of_best_sections = some sob →
      app.current_sections.length ≤ sob.length →
      CumMonotone app.current_sections → CumMonotone sob →
      ∀ i, i < app.current_sections.length →
        timeAt r.sum_of_best i =
          ((List.range (i + 1)).map
            (fun j => min (segAt app.current_sections j) (segAt sob j))).sum ∧
        segAt r.sum_of_best i =
          min (segAt app.current_sections i) (segAt sob i)) := by
  refine ⟨save_sum_of_best_eq app r h, ?_, ?_⟩
  · intro hnone
    rw [save_sum_of_best_eq app r h]
    unfold RunApp.new_sob
    rw [hnone]
  · intro sob hsob hlen hmc hms i hi
    have hr : r.sum_of_best = sumOfBestLoop 0 0 0 app.current_sections sob := by
      rw [save_sum_of_best_eq app r h]
      unfold RunApp.new_sob
      rw [hsob]
    have hcum : ∀ k, k < app.current_sections.length →
        timeAt r.sum_of_best k = ((List.range (k + 1)).map
          (fun j => min (segAt app.current_sections j) (segAt sob j))).sum := by
      intro k hk
      rw [hr, sumOfBestLoop_timeAt _ _ 0 0 0 k hk hlen]
      simp [segAt]
    refine ⟨hcum i hi, ?_⟩
    cases i with
    | zero =>
      have h0 : segAt r.sum_of_best 0 = timeAt r.sum_of_best 0 - 0 := by
        unfold segAt relSeg
        rw [if_pos rfl]
      rw [h0, hcum 0 hi]
      simp [List.range_succ]
    | succ j =>
      have hj : j < app.current_sections.length := by omega
      have hstep : segAt r.sum_of_best (j + 1) =
          timeAt r.sum_of_best (j + 1) - timeAt r.sum_of_best j := by
        unfold segAt relSeg
        rw [if_neg (Nat.succ_ne_zero j)]
        simp
      rw [hstep, hcum (j + 1) hi, hcum j hj, List.range_succ, List.map_append,
        List.sum_append]
      simp

/-- Witness for `save_sum_of_best_min_merge`: Scenario B of the spec — the
persisted sum-of-best of `appC1w` has cumulative 36500 at index 2, the
running sum of the minimum segments, and segment `min(13500, 15000)`. -/
theorem save_sum_of_best_min_merge_witness :
    timeAt rC1w.sum_of_best 2 =
      ((List.range 3).map
        (fun j => min (segAt appC1w.current_sections j) (segAt sobC1w j))).sum ∧
    segAt rC1w.sum_of_best 2 = min (segAt appC1w.current_sections 2) (segAt sobC1w 2) :=
  (save_sum_of_best_min_merge appC1w rC1w (by decide)).2.2 sobC1w rfl
    (by decide) (by simp [appC1w, List.chain'_cons]) (by simp [sobC1w, List.chain'_cons])
    2 (by decide)

/-! ### C8: characterization of the loss-so-far carry -/

theorem toI32_small (n : Nat) (h : n < 2147483648) : toI32 n = (n : Int) := by
  unfold toI32
  split_ifs <;> omega

theorem i32wrap_small (x : Int) (h1 : -2147483648 ≤ x) (h2 : x < 2147483648) :
    i32wrap x = x := by
  unfold i32wrap
  split_ifs <;> omega

theorem toU32_i32wrap (v : Int) (h0 : 0 ≤ v) (h1 : v < 4294967296) :
    (toU32 (i32wrap v) : Int) = v := by
  unfold toU32 i32wrap
  split_ifs <;> omega

theorem timeAt_get (xs : List Section) (i : Nat) (hi : i < xs.length) :
    timeAt xs i = (xs.get ⟨i, hi⟩).time := by
  unfold timeAt
  rw [List.getD_eq_getElem?_getD, ← List.get?_eq_getElem?, List.get?_eq_get hi]
  rfl

theorem timeAt_lt_of_forall (xs : List Section) (i : Nat) (B : Nat)
    (hi : i < xs.length) (hB : ∀ s ∈ xs, s.time < B) : timeAt xs i < B := by
  rw [timeAt_get xs i hi]
  exact hB _ (List.get_mem xs i hi)

theorem cumMonotone_timeAt_le (xs : List Section) (i : Nat)
    (h : CumMonotone xs) (hi : i + 1 < xs.length) :
    timeAt xs i ≤ timeAt xs (i + 1) := by
  rw [timeAt_get xs i (by omega), timeAt_get xs (i + 1) hi]
  exact List.chain'_iff_get.mp h i (by omega)

/-- C8 (amended): with a stored sum-of-best, `last_loss` is the deficit of
the second-to-last section alone (0 when fewer than two sections exist) —
not a carried maximum — and `loss_so_far` is the larger of the last
section's deficit and that one-section look-back.  In particular the carry
is a sliding window of width two, which can decrease as the run progresses
(see the counterexample).  Bounds of `2^31` keep the `u32`/`i32` casts of
the source exact. -/
theorem loss_so_far_window_max (app : RunApp) (sob : List Section)
    (hsob : app.sum_of_best_sections = some sob)
    (hne : app.current_sections ≠ [])
    (hlen : app.current_sections.length ≤ sob.length)
    (hbc : ∀ s ∈ app.current_sections, s.time < 2147483648)
    (hbs : ∀ s ∈ sob, s.time < 2147483648)
    (hms : CumMonotone sob) :
    app.last_loss = (if app.current_sections.length ≤ 1 then 0 else
        (timeAt app.current_sections (app.current_sections.length - 2) : Int) -
          (timeAt sob (app.current_sections.length - 2) : Int)) ∧
    app.loss_so_far =
      max ((timeAt app.current_sections (app.current_sections.length - 1) : Int) -
            (timeAt sob (app.current_sections.length - 1) : Int))
          app.last_loss := by
  have hn1 : 1 ≤ app.current_sections.length := by
    cases hcs : app.current_sections with
    | nil => exact absurd hcs hne
    | cons a l => simp [hcs]
  have ha2 : timeAt app.current_sections (app.current_sections.length - 2) < 2147483648 :=
    timeAt_lt_of_forall _ _ _ (by omega) hbc
  have hb2 : timeAt sob (app.current_sections.length - 2) < 2147483648 :=
    timeAt_lt_of_forall _ _ _ (by omega) hbs
  have hc1 : timeAt app.current_sections (app.current_sections.length - 1) < 2147483648 :=
    timeAt_lt_of_forall _ _ _ (by omega) hbc
  have hs1 : timeAt sob (app.current_sections.length - 1) < 2147483648 :=
    timeAt_lt_of_forall _ _ _ (by omega) hbs
  have hll : app.last_loss = (if app.current_sections.length ≤ 1 then 0 else
      (timeAt app.current_sections (app.current_sections.length - 2) : Int) -
        (timeAt sob (app.current_sections.length - 2) : Int)) := by
    unfold RunApp.last_loss
    rw [hsob]
    dsimp only
    by_cases h1 : app.current_sections.length ≤ 1
    · rw [if_pos h1, if_pos h1]
    · rw [if_neg h1, if_neg h1, toI32_small _ ha2, toI32_small _ hb2,
        i32wrap_small _ (by omega) (by omega)]
  refine ⟨hll, ?_⟩
  have hllb : -2147483648 < app.last_loss ∧ app.last_loss < 2147483648 := by
    rw [hll]
    split_ifs with h1
    · constructor <;> omega
    · constructor <;> omega
  have hv0 : 0 ≤ (timeAt sob (app.current_sections.length - 1) : Int) + app.last_loss := by
    rw [hll]
    split_ifs with h1
    · omega
    · have hmono : timeAt sob (app.current_sections.length - 2) ≤
          timeAt sob (app.current_sections.length - 1) := by
        have e : app.current_sections.length - 2 + 1 = app.current_sections.length - 1 := by
          omega
        have := cumMonotone_timeAt_le sob (app.current_sections.length - 2) hms (by omega)
        rwa [e] at this
      omega
  have hvlt : (timeAt sob (app.current_sections.length - 1) : Int) + app.last_loss <
      4294967296 := by omega
  have hval := toU32_i32wrap _ hv0 hvlt
  unfold RunApp.loss_so_far
  rw [hsob]
  dsimp only
  rw [if_neg (by omega : ¬app.current_sections.length = 0)]
  rw [toI32_small _ hs1]
  by_cases hcond : toU32 (i32wrap ((timeAt sob (app.current_sections.length - 1) : Int) +
      app.last_loss)) < timeAt app.current_sections (app.current_sections.length - 1)
  · rw [if_pos hcond]
    rw [toI32_small _ hc1, i32wrap_small _ (by omega) (by omega)]
    have hlt : (timeAt sob (app.current_sections.length - 1) : Int) + app.last_loss <
        (timeAt app.current_sections (app.current_sections.length - 1) : Int) := by
      omega
    exact (max_eq_left (by omega)).symm
  · rw [if_neg hcond]
    have hge : ¬((timeAt sob (app.current_sections.length - 1) : Int) + app.last_loss <
        (timeAt app.current_sections (app.current_sections.length - 1) : Int)) := by
      intro hlt
      exact hcond (by omega)
    exact (max_eq_right (by omega)).symm

/-- Witness for `loss_so_far_window_max` at `app8wit`: deficits are 100
then 50, so the carry is `max 50 100 = 100`. -/
theorem loss_so_far_window_max_witness :
    app8wit.last_loss = (if app8wit.current_sections.length ≤ 1 then 0 else
        (timeAt app8wit.current_sections (app8wit.current_sections.length - 2) : Int) -
          (timeAt sobC8w (app8wit.current_sections.length - 2) : Int)) ∧
    app8wit.loss_so_far =
      max ((timeAt app8wit.current_sections (app8wit.current_sections.length - 1) : Int) -
            (timeAt sobC8w (app8wit.current_sections.length - 1) : Int))
          app8wit.last_loss :=
  loss_so_far_window_max app8wit sobC8w rfl (by decide) (by decide)
    (by decide) (by decide) (by simp [sobC8w, List.chain'_cons])

/-! ### C5: finished runs have monotone cumulative times -/

theorem setLastTime_inv (l : List Section) (t τ : Nat)
    (hc : CumMonotone l) (hb : ∀ s ∈ l, s.time ≤ τ) (ht : τ ≤ t) :
    CumMonotone (setLastTime l t) ∧ ∀ s ∈ setLastTime l t, s.time ≤ t := by
  induction l with
  | nil => exact ⟨List.chain'_nil, by simp [setLastTime]⟩
  | cons s rest ih =>
    cases rest with
    | nil =>
      refine ⟨List.chain'_singleton _, ?_⟩
      intro x hx
      simp only [setLastTime, List.mem_singleton] at hx
      rw [hx]
    | cons s' rest' =>
      have hc' : CumMonotone (s' :: rest') := (List.chain'_cons.mp hc).2
      have hss' : s.time ≤ s'.time := (List.chain'_cons.mp hc).1
      have hb' : ∀ x ∈ s' :: rest', x.time ≤ τ :=
        fun x hx => hb x (List.mem_cons_of_mem _ hx)
      obtain ⟨ihc, ihb⟩ := ih hc' hb'
      constructor
      · show List.Chain' _ (s :: setLastTime (s' :: rest') t)
        rw [List.chain'_cons']
        refine ⟨?_, ihc⟩
        intro y hy
        cases rest' with
        | nil =>
          simp only [setLastTime, List.head?_cons, Option.mem_def,
            Option.some.injEq] at hy
          rw [← hy]
          exact le_trans (hb s (List.mem_cons_self _ _)) ht
        | cons s'' rest'' =>
          simp only [setLastTime, List.head?_cons, Option.mem_def,
            Option.some.injEq] at hy
          rw [← hy]
          exact hss'
      · intro x hx
        rcases List.mem_cons.mp hx with h | h
        · rw [h]
          exact le_trans (hb s (List.mem_cons_self _ _)) ht
        · exact ihb x h

theorem append_last_inv (l : List Section) (x : Section) (τ : Nat)
    (hc : CumMonotone l) (hb : ∀ s ∈ l, s.time ≤ τ) (hx : τ ≤ x.time) :
    CumMonotone (l ++ [x]) ∧ ∀ s ∈ l ++ [x], s.time ≤ x.time := by
  constructor
  · show List.Chain' (fun a b => a.time ≤ b.time) (l ++ [x])
    rw [List.chain'_append]
    refine ⟨hc, List.chain'_singleton x, ?_⟩
    intro a ha y hy
    simp only [List.head?_cons, Option.mem_def, Option.some.injEq] at hy
    rw [← hy]
    exact le_trans (hb a (List.mem_of_mem_getLast? ha)) hx
  · intro s hs
    rcases List.mem_append.mp hs with h | h
    · exact le_trans (hb s h) hx
    · rw [List.mem_singleton.mp h]

theorem update_inv (app : RunApp) (t τ : Nat)
    (hc : CumMonotone app.current_sections) (hb : ClockBound app τ)
    (ht : τ ≤ t) (hw : t < 4294967296) :
    CumMonotone (app.update_current_time t).current_sections ∧
    ClockBound (app.update_current_time t) t := by
  unfold RunApp.update_current_time ClockBound at *
  split_ifs with h1 h2
  · exact ⟨hc, fun s hs => le_trans (hb s hs) ht⟩
  · exact ⟨hc, fun s hs => le_trans (hb s hs) ht⟩
  · rw [Nat.mod_eq_of_lt hw]
    exact setLastTime_inv _ _ _ hc hb ht

/-- The clock-consistency invariant is preserved along every valid trace
whose raw readings stay below `2^32` (so the stored `u32` values do not
wrap): cumulative times stay non-decreasing and bounded by the newest
reading. -/
theorem execT_inv (es : List Ev) :
    ∀ (app : RunApp) (τ : Nat) (out : RunApp × Nat),
    execT es app τ = some out →
    (∀ e ∈ es, EvBounded e) →
    CumMonotone app.current_sections → ClockBound app τ →
    CumMonotone out.1.current_sections ∧ ClockBound out.1 out.2 := by
  induction es with
  | nil =>
    intro app τ out h _ hc hb
    simp only [execT, Option.some.injEq] at h
    rw [← h]
    exact ⟨hc, hb⟩
  | cons e es ih =>
    intro app τ out h hbnd hc hb
    have hbe : EvBounded e := hbnd e (List.mem_cons_self _ _)
    have hbnd' : ∀ e' ∈ es, EvBounded e' :=
      fun e' he' => hbnd e' (List.mem_cons_of_mem _ he')
    cases e with
    | refresh t =>
      have hw : t < 4294967296 := hbe
      simp only [execT] at h
      by_cases hr : app.running = true
      · rw [if_pos hr] at h
        by_cases hτ : τ ≤ t
        · rw [if_pos hτ] at h
          obtain ⟨hc', hb'⟩ := update_inv app t τ hc hb hτ hw
          exact ih _ _ _ h hbnd' hc' hb'
        · rw [if_neg hτ] at h; cases h
      · rw [if_neg hr] at h
        have hid : app.update_current_time t = app := by
          unfold RunApp.update_current_time
          rw [if_pos (by revert hr; cases app.running <;> simp)]
        rw [hid] at h
        exact ih _ _ _ h hbnd' hc hb
    | sig t1 t2 =>
      have hw : t1 < 4294967296 ∧ t2 < 4294967296 := hbe
      simp only [execT] at h
      by_cases h0 : app.running = false ∧ app.current_sections.length = 0
      · rw [if_pos h0] at h
        have hstart : (app.handle_signal SIGUSR1 t1 t2).1 =
            { app with
              running := true
              current_sections := [⟨app.config.sections.getD 0 "", 0⟩] } := by
          unfold RunApp.handle_signal
          rw [if_neg (by simp), if_pos h0]
        rw [hstart] at h
        apply ih _ _ _ h hbnd' (List.chain'_singleton _)
        intro s hs
        rw [List.mem_singleton.mp hs]
      · rw [if_neg h0] at h
        by_cases hr : app.running = false
        · rw [if_pos hr] at h
          exact ih _ _ _ h hbnd' hc hb
        · rw [if_neg hr] at h
          by_cases hτ : τ ≤ t1 ∧ t1 ≤ t2
          · rw [if_pos hτ] at h
            obtain ⟨hupc, hupb⟩ := update_inv app t1 τ hc hb hτ.1 hw.1
            by_cases hfin : (app.update_current_time t1).config.sections.length ≤
                (app.update_current_time t1).current_sections.length
            · have hsig : (app.handle_signal SIGUSR1 t1 t2).1 =
                  { app.update_current_time t1 with running := false } := by
                unfold RunApp.handle_signal
                rw [if_neg (by simp), if_neg h0, if_neg hr]
                dsimp only
                rw [if_pos hfin]
                cases ({ app.update_current_time t1 with running := false } : RunApp).save <;>
                  rfl
              rw [hsig] at h
              apply ih _ _ _ h hbnd' hupc
              intro s hs
              exact le_trans (hupb s hs) hτ.2
            · have hsig : (app.handle_signal SIGUSR1 t1 t2).1 =
                  { app.update_current_time t1 with current_sections :=
                    (app.update_current_time t1).current_sections ++
                      [⟨(app.update_current_time t1).config.sections.getD
                        (app.update_current_time t1).current_sections.length "", t2⟩] } := by
                unfold RunApp.handle_signal
                rw [if_neg (by simp), if_neg h0, if_neg hr]
                dsimp only
                rw [if_neg hfin, Nat.mod_eq_of_lt hw.2]
              rw [hsig] at h
              obtain ⟨hac, hab⟩ :=
                append_last_inv (app.update_current_time t1).current_sections
                  ⟨(app.update_current_time t1).config.sections.getD
                    (app.update_current_time t1).current_sections.length "", t2⟩
                  t1 hupc (fun s hs => hupb s hs) hτ.2
              exact ih _ _ _ h hbnd' hac hab
          · rw [if_neg hτ] at h; cases h

/-- C5 (amended): every run the state machine produces from the idle
initial state along a clock-consistent trace whose raw elapsed readings
stay below `2^32` ms (about 49.7 days, so the `as u32` cast of each stored
reading does not wrap) — in particular every Finished run of such a trace
— has non-decreasing cumulative times: `cumulative[i] ≤ cumulative[i+1]`
for all valid `i`.  Without that bound the claim fails: see the wrap
counterexample. -/
theorem finished_run_monotone (app0 : RunApp) (es : List Ev) (out : RunApp × Nat)
    (hidle : app0.current_sections = [])
    (hbnd : ∀ e ∈ es, EvBounded e)
    (h : execT es app0 0 = some out)
    (_hfin : out.1.running = false)
    (_hall : out.1.current_sections.length = out.1.config.sections.length) :
    CumMonotone out.1.current_sections :=
  (execT_inv es app0 0 out h hbnd
    (by rw [hidle]; exact List.chain'_nil)
    (fun s hs => by rw [hidle] at hs; cases hs)).1

/-- Witness for `finished_run_monotone`: a start, a live refresh and two
splits finish a two-section run with cumulative times `[5, 9]`. -/
theorem finished_run_monotone_witness :
    CumMonotone outC5w.1.current_sections :=
  finished_run_monotone appC5w [Ev.sig 0 0, Ev.refresh 3, Ev.sig 5 5, Ev.sig 9 9]
    outC5w rfl (by decide) (by decide) rfl rfl

/-- C5 counterexample: the raw readings of this trace are genuinely
monotone (`Instant` never goes backwards) but cross `2^32` ms, so the
stored `u32` readings wrap (main.rs:131, 251-252): the run finishes with
cumulative times `[4294967295, 5]`, which is NOT non-decreasing — the
original claim is false for this program-reachable finished run. -/
theorem clock_wrap_nonmonotone_cex :
    execT [Ev.sig 0 0, Ev.sig 4294967295 4294967295,
      Ev.sig 4294967301 4294967301] appC5w 0 = some outC5cex ∧
    outC5cex.1.running = false ∧
    outC5cex.1.current_sections.length = outC5cex.1.config.sections.length ∧
    ¬CumMonotone outC5cex.1.current_sections := by
  refine ⟨by decide, rfl, rfl, ?_⟩
  simp [outC5cex, List.chain'_cons]

/-! ### C10: run-file persistence round trip -/

theorem digitChar_isDigit (d : Nat) (h : d < 10) :
    (Nat.digitChar d).isDigit = true := by
  interval_cases d <;> decide

theorem digitChar_toNat (d : Nat) (h : d < 10) :
    (Nat.digitChar d).toNat - Char.toNat '0' = d := by
  interval_cases d <;> decide

theorem natDigitsAux_small (fuel n : Nat) (hf : n < fuel) (h : n < 10) :
    natDigitsAux fuel n = [Nat.digitChar n] := by
  cases fuel with
  | zero => omega
  | succ f => simp [natDigitsAux, h]

theorem natDigitsAux_digits (fuel : Nat) :
    ∀ n, n < fuel → ∀ c ∈ natDigitsAux fuel n, c.isDigit = true := by
  induction fuel with
  | zero => intro n h; omega
  | succ f ih =>
    intro n h c hc
    simp only [natDigitsAux] at hc
    by_cases h10 : n < 10
    · rw [if_pos h10] at hc
      rw [List.mem_singleton.mp hc]
      exact digitChar_isDigit n h10
    · rw [if_neg h10] at hc
      rcases List.mem_append.mp hc with h1 | h1
      · exact ih (n / 10) (by omega) c h1
      · rw [List.mem_singleton.mp h1]
        exact digitChar_isDigit (n % 10) (by omega)

theorem natOfDigits_append_one (l : List Char) (c : Char) :
    natOfDigits (l ++ [c]) = natOfDigits l * 10 + (c.toNat - Char.toNat '0') := by
  unfold natOfDigits
  rw [List.foldl_append]
  rfl

theorem natOfDigits_one (c : Char) :
    natOfDigits [c] = c.toNat - Char.toNat '0' := by
  unfold natOfDigits
  simp

theorem natOfDigits_natDigitsAux (fuel : Nat) :
    ∀ n, n < fuel → natOfDigits (natDigitsAux fuel n) = n := by
  induction fuel with
  | zero => intro n h; omega
  | succ f ih =>
    intro n h
    simp only [natDigitsAux]
    by_cases h10 : n < 10
    · rw [if_pos h10, natOfDigits_one, digitChar_toNat n h10]
    · rw [if_neg h10, natOfDigits_append_one, ih (n / 10) (by omega),
        digitChar_toNat (n % 10) (by omega)]
      omega

theorem natDigits_digits (n : Nat) : ∀ c ∈ natDigits n, c.isDigit = true :=
  natDigitsAux_digits (n + 1) n (by omega)

theorem natOfDigits_natDigits (n : Nat) : natOfDigits (natDigits n) = n :=
  natOfDigits_natDigitsAux (n + 1) n (by omega)

theorem natDigits_ne_nil (n : Nat) : natDigits n ≠ [] := by
  unfold natDigits
  by_cases h10 : n < 10
  · rw [natDigitsAux_small _ _ (by omega) h10]
    simp
  · simp only [natDigitsAux, if_neg h10]
    simp

theorem natDigitsAux_len2 (fuel m : Nat) (hf : m < fuel) (h : m < 100) :
    (natDigitsAux fuel m).length ≤ 2 := by
  by_cases h10 : m < 10
  · rw [natDigitsAux_small _ _ hf h10]
    simp
  · cases fuel with
    | zero => omega
    | succ f =>
      simp only [natDigitsAux, if_neg h10]
      rw [natDigitsAux_small f (m / 10) (by omega) (by omega)]
      simp

theorem natDigits_len2 (n : Nat) (h : n < 100) : (natDigits n).length ≤ 2 :=
  natDigitsAux_len2 (n + 1) n (by omega) h

theorem natDigits_len3 (n : Nat) (h : n < 1000) : (natDigits n).length ≤ 3 := by
  by_cases h100 : n < 100
  · exact le_trans (natDigits_len2 n h100) (by omega)
  · unfold natDigits
    simp only [natDigitsAux, if_neg (by omega : ¬n < 10)]
    have h2 : (natDigitsAux n (n / 10)).length ≤ 2 :=
      natDigitsAux_len2 n (n / 10) (by omega) (by omega)
    simp only [List.length_append, List.length_cons, List.length_nil]
    omega

theorem padLeftChar_length (c : Char) (w : Nat) (s : List Char)
    (h : s.length ≤ w) : (padLeftChar c w s).length = w := by
  unfold padLeftChar
  simp
  omega

theorem padLeftChar_digits (w : Nat) (s : List Char)
    (hs : ∀ c ∈ s, c.isDigit = true) :
    ∀ c ∈ padLeftChar '0' w s, c.isDigit = true := by
  intro c hc
  unfold padLeftChar at hc
  rcases List.mem_append.mp hc with h | h
  · rw [List.eq_of_mem_replicate h]
    decide
  · exact hs c h

theorem natOfDigits_pad (w : Nat) (s : List Char) :
    natOfDigits (padLeftChar '0' w s) = natOfDigits s := by
  unfold padLeftChar natOfDigits
  rw [List.foldl_append]
  have hz : ∀ k, List.foldl (fun a c => a * 10 + (c.toNat - Char.toNat '0')) 0
      (List.replicate k '0') = 0 := by
    intro k
    induction k with
    | zero => rfl
    | succ k ih =>
      rw [List.replicate_succ, List.foldl_cons]
      have he : (0 * 10 + (Char.toNat '0' - Char.toNat '0')) = 0 := by decide
      rw [he, ih]
  rw [hz]

theorem renderTimeChars_eq (t : Nat) :
    renderTimeChars t = natDigits (t / 60000) ++
      ('m' :: (padLeftChar '0' 2 (natDigits (t / 1000 % 60)) ++
        ('.' :: (padLeftChar '0' 3 (natDigits (t % 1000)) ++ ['s'])))) := by
  unfold renderTimeChars
  simp [List.append_assoc]

theorem renderTimeChars_class (t : Nat) :
    ∀ c ∈ renderTimeChars t,
      c.isDigit = true ∨ c = 'm' ∨ c = '.' ∨ c = 's' := by
  intro c hc
  rw [renderTimeChars_eq] at hc
  rcases List.mem_append.mp hc with h | h
  · exact Or.inl (natDigits_digits _ c h)
  · rcases List.mem_cons.mp h with h | h
    · exact Or.inr (Or.inl h)
    · rcases List.mem_append.mp h with h | h
      · exact Or.inl (padLeftChar_digits _ _ (natDigits_digits _) c h)
      · rcases List.mem_cons.mp h with h | h
        · exact Or.inr (Or.inr (Or.inl h))
        · rcases List.mem_append.mp h with h | h
          · exact Or.inl (padLeftChar_digits _ _ (natDigits_digits _) c h)
          · exact Or.inr (Or.inr (Or.inr (List.mem_singleton.mp h)))

theorem renderTimeChars_no (t : Nat) (ch : Char) (h1 : ch.isDigit = false)
    (h2 : ch ≠ 'm') (h3 : ch ≠ '.') (h4 : ch ≠ 's') :
    ch ∉ renderTimeChars t := by
  intro hc
  rcases renderTimeChars_class t ch hc with h | h | h | h
  · rw [h] at h1; cases h1
  · exact h2 h
  · exact h3 h
  · exact h4 h

theorem takeWhile_all_append (p : Char → Bool) (l : List Char) (x : Char)
    (r : List Char) (hl : ∀ c ∈ l, p c = true) (hx : p x = false) :
    (l ++ x :: r).takeWhile p = l ∧ (l ++ x :: r).dropWhile p = x :: r := by
  induction l with
  | nil =>
    constructor
    · simp [List.takeWhile_cons, hx]
    · simp [List.dropWhile_cons, hx]
  | cons c l' ih =>
    have hc : p c = true := hl c (List.mem_cons_self _ _)
    obtain ⟨ih1, ih2⟩ := ih (fun d hd => hl d (List.mem_cons_of_mem _ hd))
    constructor
    · simp [List.takeWhile_cons, hc, ih1]
    · simp [List.dropWhile_cons, hc, ih2]

theorem msm_roundtrip (t : Nat) (h : t < 4294967296) :
    min_sec_mil_to_millis (t / 60000) (t / 1000 % 60) (t % 1000) = t := by
  unfold min_sec_mil_to_millis
  have h1 : t / 1000 / 60 = t / 60000 := by
    rw [Nat.div_div_eq_div_mul]
  rw [← h1]
  omega

theorem parseTimePart_shape (minD : List Char) (d1 d2 e1 e2 e3 : Char)
    (hmin : ∀ c ∈ minD, c.isDigit = true) (hne : minD ≠ [])
    (h1 : d1.isDigit = true) (h2 : d2.isDigit = true) (h3 : e1.isDigit = true)
    (h4 : e2.isDigit = true) (h5 : e3.isDigit = true)
    (hval : natOfDigits minD < 4294967296) :
    parseTimePart (minD ++ 'm' :: ([d1, d2] ++ '.' :: ([e1, e2, e3] ++ ['s']))) =
      some (min_sec_mil_to_millis (natOfDigits minD) (natOfDigits [d1, d2])
        (natOfDigits [e1, e2, e3])) := by
  obtain ⟨htake, hdrop⟩ := takeWhile_all_append Char.isDigit minD 'm'
    ([d1, d2] ++ '.' :: ([e1, e2, e3] ++ ['s'])) hmin (by decide)
  unfold parseTimePart
  rw [htake, hdrop]
  simp only [List.cons_append, List.nil_append]
  rw [if_pos ⟨hne, by simp [h1, h2, h3, h4, h5], hval⟩]

theorem parseTimePart_render (t : Nat) (h : t < 4294967296) :
    parseTimePart (renderTimeChars t) = some t := by
  have hsec : t / 1000 % 60 < 100 := by omega
  have hmil : t % 1000 < 1000 := by omega
  obtain ⟨d1, d2, hd⟩ := List.length_eq_two.mp
    (padLeftChar_length '0' 2 _ (natDigits_len2 _ hsec))
  obtain ⟨e1, e2, e3, he⟩ := List.length_eq_three.mp
    (padLeftChar_length '0' 3 _ (natDigits_len3 _ hmil))
  have hd1 : d1.isDigit = true :=
    padLeftChar_digits 2 _ (natDigits_digits _) d1 (by rw [hd]; simp)
  have hd2 : d2.isDigit = true :=
    padLeftChar_digits 2 _ (natDigits_digits _) d2 (by rw [hd]; simp)
  have he1 : e1.isDigit = true :=
    padLeftChar_digits 3 _ (natDigits_digits _) e1 (by rw [he]; simp)
  have he2 : e2.isDigit = true :=
    padLeftChar_digits 3 _ (natDigits_digits _) e2 (by rw [he]; simp)
  have he3 : e3.isDigit = true :=
    padLeftChar_digits 3 _ (natDigits_digits _) e3 (by rw [he]; simp)
  rw [renderTimeChars_eq, hd, he]
  rw [parseTimePart_shape (natDigits (t / 60000)) d1 d2 e1 e2 e3
    (natDigits_digits _) (natDigits_ne_nil _) hd1 hd2 he1 he2 he3
    (by rw [natOfDigits_natDigits]; omega)]
  rw [← hd, ← he, natOfDigits_pad, natOfDigits_pad,
    natOfDigits_natDigits, natOfDigits_natDigits, natOfDigits_natDigits,
    msm_roundtrip t h]

/-- One-step unfolding of `parseLineAux` on a cons cell. -/
theorem parseLineAux_cons (c : Char) (rest : List Char) :
    parseLineAux (c :: rest) =
      match parseLineAux rest with
      | some p => some (c :: p.1, p.2)
      | none =>
        if c = ':' then
          match rest with
          | ' ' :: rest2 => (parseTimePart rest2).map (fun t => (([] : List Char), t))
          | _ => none
        else none := rfl

theorem parseLineAux_no_colon (cs : List Char) (h : ':' ∉ cs) :
    parseLineAux cs = none := by
  induction cs with
  | nil => rfl
  | cons c rest ih =>
    have hc : ¬c = ':' := fun e => h (by rw [e]; exact List.mem_cons_self _ _)
    have hr : ':' ∉ rest := fun e => h (List.mem_cons_of_mem _ e)
    rw [parseLineAux_cons, ih hr]
    rw [if_neg hc]

theorem parseLineAux_split (nm body : List Char) (t : Nat)
    (hb : ':' ∉ body) (hp : parseTimePart body = some t) :
    parseLineAux (nm ++ ':' :: ' ' :: body) = some (nm, t) := by
  induction nm with
  | nil =>
    have h1 : parseLineAux (' ' :: body) = none := by
      apply parseLineAux_no_colon
      intro hmem
      rcases List.mem_cons.mp hmem with h | h
      · exact absurd h (by decide)
      · exact hb h
    show parseLineAux (':' :: ' ' :: body) = some ([], t)
    rw [parseLineAux_cons, h1]
    rw [if_pos rfl]
    rw [show (match ' ' :: body with
      | ' ' :: rest2 => (parseTimePart rest2).map (fun t => (([] : List Char), t))
      | _ => none) =
      (parseTimePart body).map (fun t => (([] : List Char), t)) from rfl]
    rw [hp]
    rfl
  | cons c nm' ih =>
    show parseLineAux (c :: (nm' ++ ':' :: ' ' :: body)) = some (c :: nm', t)
    rw [parseLineAux_cons, ih]

theorem parseLine_render (sec : Section) (ht : sec.time < 4294967296) :
    parseLine (renderLineChars sec) = some sec := by
  unfold parseLine renderLineChars
  rw [parseLineAux_split sec.name.data (renderTimeChars sec.time) sec.time
    (renderTimeChars_no _ ':' (by decide) (by decide) (by decide) (by decide))
    (parseTimePart_render _ ht)]
  rfl

/-- One-step unfolding of `splitLinesAux` on a cons cell. -/
theorem splitLinesAux_cons (acc : List Char) (c : Char) (rest : List Char) :
    splitLinesAux acc (c :: rest) =
      if c = '\n' then stripCR acc.reverse :: splitLinesAux [] rest
      else splitLinesAux (c :: acc) rest := rfl

theorem splitLinesAux_append (l : List Char) (hl : '\n' ∉ l) :
    ∀ (acc r : List Char),
    splitLinesAux acc (l ++ '\n' :: r) =
      stripCR (acc.reverse ++ l) :: splitLinesAux [] r := by
  induction l with
  | nil =>
    intro acc r
    show splitLinesAux acc ('\n' :: r) = _
    rw [splitLinesAux_cons, if_pos rfl]
    simp
  | cons c l' ih =>
    intro acc r
    have hc : ¬c = '\n' := fun e => hl (by rw [e]; exact List.mem_cons_self _ _)
    show splitLinesAux acc (c :: (l' ++ '\n' :: r)) = _
    rw [splitLinesAux_cons, if_neg hc]
    refine (ih (fun e => hl (List.mem_cons_of_mem _ e)) (c :: acc) r).trans ?_
    rw [show ((c :: acc).reverse ++ l') = (acc.reverse ++ c :: l') by simp]

theorem stripCR_of_not_mem (l : List Char) (h : '\r' ∉ l) : stripCR l = l := by
  unfold stripCR
  rw [if_neg]
  intro he
  exact h (List.mem_of_mem_getLast? he)

theorem renderLineChars_no (sec : Section) (ch : Char)
    (hname : ch ∉ sec.name.data) (h1 : ch.isDigit = false) (h2 : ch ≠ 'm')
    (h3 : ch ≠ '.') (h4 : ch ≠ 's') (h5 : ch ≠ ':') (h6 : ch ≠ ' ') :
    ch ∉ renderLineChars sec := by
  unfold renderLineChars
  intro hmem
  rcases List.mem_append.mp hmem with h | h
  · exact hname h
  · rcases List.mem_cons.mp h with h | h
    · exact h5 h
    · rcases List.mem_cons.mp h with h | h
      · exact h6 h
      · exact renderTimeChars_no _ ch h1 h2 h3 h4 h

/-- C10: persistence round trip — for every section list whose names
contain no newline and no carriage return (and whose times are `u32`
values, as every time the program writes is), `load_run` applied to the
exact file contents `save_run` writes returns the original sections, names
and millisecond times intact. -/
theorem save_load_roundtrip (sections : List Section)
    (hn : ∀ s ∈ sections, '\n' ∉ s.name.data ∧ '\r' ∉ s.name.data)
    (ht : ∀ s ∈ sections, s.time < 4294967296) :
    load_run (save_run sections) = some sections := by
  unfold load_run save_run
  show (splitLinesAux []
      (sections.foldr (fun s acc => renderLineChars s ++ '\n' :: acc) [])).mapM
      parseLine = some sections
  induction sections with
  | nil => rfl
  | cons sec rest ih =>
    obtain ⟨hn1, hr1⟩ := hn sec (List.mem_cons_self _ _)
    have hnl : '\n' ∉ renderLineChars sec :=
      renderLineChars_no sec '\n' hn1 (by decide) (by decide) (by decide)
        (by decide) (by decide) (by decide)
    have hrl : '\r' ∉ renderLineChars sec :=
      renderLineChars_no sec '\r' hr1 (by decide) (by decide) (by decide)
        (by decide) (by decide) (by decide)
    rw [List.foldr_cons, splitLinesAux_append _ hnl [] _]
    rw [show (([] : List Char).reverse ++ renderLineChars sec) =
      renderLineChars sec from by simp]
    rw [stripCR_of_not_mem _ hrl]
    rw [List.mapM_cons, parseLine_render sec (ht sec (List.mem_cons_self _ _))]
    rw [ih (fun s hs => hn s (List.mem_cons_of_mem _ hs))
      (fun s hs => ht s (List.mem_cons_of_mem _ hs))]
    rfl

/-- Witness for `save_load_roundtrip`: two sections, one of whose names
contains a decoy time pattern, survive the round trip. -/
theorem save_load_roundtrip_witness :
    load_run (save_run sectionsC10w) = some sectionsC10w :=
  save_load_roundtrip sectionsC10w (by decide) (by decide)

end Speedy
